import Mathlib

/-!
Verification of the natural-language-to-structured-query compilers of the
care-ai-hackathon repository (Jira JQL compiler `search_jira_nl` in
src/mcp/mcp-jira.js and the LangChain tool variant, and the Confluence CQL
compiler `search_confluence_solutions`), plus the page-id extraction of
`get_confluence_page` and the excerpt shaping of `search_confluence_solutions`.

The JavaScript string pipeline is embedded shallowly: strings are `List Char`
(wrapped into `String` at the API boundary), the handful of fixed regular
expressions of the source are implemented as dedicated scanners with
JavaScript's leftmost-match, greedy semantics, and `String.prototype.replace`
calls are implemented as structural recursions.  Case-insensitive matching is
modelled by ASCII case folding (the source's patterns are all ASCII and the
regexes carry no `u` flag, so JavaScript also folds only ASCII there).
-/

namespace CareAI

/-! ## Character classes (JavaScript regex semantics) -/

/-- JavaScript regex word character `\w`, i.e. `[A-Za-z0-9_]`. -/
def isWordChar (c : Char) : Bool :=
  ('a' ≤ c && c ≤ 'z') || ('A' ≤ c && c ≤ 'Z') || ('0' ≤ c && c ≤ '9') || c = '_'

/-- JavaScript regex digit `\d`, i.e. `[0-9]`. -/
def isDigitCh (c : Char) : Bool := '0' ≤ c && c ≤ '9'

/-- ASCII letter, `[A-Za-z]` (the `[A-Z]` class of the project regex under
the `i` flag). -/
def isAsciiLetter (c : Char) : Bool :=
  ('a' ≤ c && c ≤ 'z') || ('A' ≤ c && c ≤ 'Z')

/-- JavaScript regex whitespace `\s` (also the set trimmed by
`String.prototype.trim`), by code point: tab 9, LF 10, VT 11, FF 12, CR 13,
space 32, NBSP 0xa0, Ogham space 0x1680, the 0x2000–0x200a spaces, LS 0x2028,
PS 0x2029, NNBSP 0x202f, MMSP 0x205f, ideographic space 0x3000, BOM 0xfeff. -/
def wsChar (c : Char) : Bool :=
  c.toNat = 32 || c.toNat = 9 || c.toNat = 10 || c.toNat = 11 || c.toNat = 12 ||
  c.toNat = 13 || c.toNat = 0xa0 || c.toNat = 0x1680 ||
  (0x2000 ≤ c.toNat && c.toNat ≤ 0x200a) ||
  c.toNat = 0x2028 || c.toNat = 0x2029 || c.toNat = 0x202f ||
  c.toNat = 0x205f || c.toNat = 0x3000 || c.toNat = 0xfeff

/-- ASCII lower-casing of one character, the case folding JavaScript applies
to these ASCII-only patterns (regex `i` flag without `u`, and
`String.prototype.toLowerCase` restricted to ASCII input). -/
def lcChar (c : Char) : Char :=
  if 'A' ≤ c && c ≤ 'Z' then Char.ofNat (c.toNat + 32) else c

/-- ASCII upper-casing of one character (`String.prototype.toUpperCase` on the
ASCII characters the project capture group can produce). -/
def ucChar (c : Char) : Char :=
  if 'a' ≤ c && c ≤ 'z' then Char.ofNat (c.toNat - 32) else c

/-! ## Scanning primitives -/

/-- Case-insensitive (ASCII-folded) prefix test: the pattern is given in lower
case and compared against the folded input. -/
def ciPrefix : List Char → List Char → Bool
  | [], _ => true
  | _ :: _, [] => false
  | p :: ps, c :: cs => p = lcChar c && ciPrefix ps cs

/-- A `\b` word boundary holds before the current position: the previous
character (if any) is not a word character.  (All patterns of the source start
and end in word characters, so `\b` reduces to this test.) -/
def boundaryBefore (prev : Option Char) : Bool :=
  match prev with
  | none => true
  | some c => !isWordChar c

/-- A `\b` word boundary holds after a match ending here: the next character
(if any) is not a word character. -/
def boundaryAfter : List Char → Bool
  | [] => true
  | c :: _ => !isWordChar c

/-- Leftmost scan: try the position test `f` (which sees the previous
character and the remaining input) at every position, left to right. -/
def scanFind {α : Type} (f : Option Char → List Char → Option α) :
    Option Char → List Char → Option α
  | _, [] => none
  | prev, c :: rest =>
    match f prev (c :: rest) with
    | some a => some a
    | none => scanFind f (some c) rest

/-- `RegExp.test` for `/\bw\b/i` where `w` is a fixed phrase starting and
ending in word characters: the phrase occurs at some position with word
boundaries on both sides. -/
def containsWordAux (pat : List Char) : Option Char → List Char → Bool
  | _, [] => false
  | prev, c :: rest =>
    (boundaryBefore prev && ciPrefix pat (c :: rest) &&
      boundaryAfter ((c :: rest).drop pat.length)) ||
    containsWordAux pat (some c) rest

/-- Word-bounded, case-folded containment of a fixed phrase. -/
def containsWord (pat : String) (s : List Char) : Bool :=
  containsWordAux pat.data none s

/-! ## Escaping

`q.replace(/\"/g, '\\"')` and `t.replace(/\"/g, '\\\"')` both replace every
double quote by backslash-quote (the two JavaScript replacement literals
denote the same two-character string). -/

/-- Backslash-escape every double quote, as the source's
`replace(/\"/g, ...)` calls do. -/
def escQL : List Char → List Char
  | [] => []
  | c :: rest => if c = '"' then '\\' :: '"' :: escQL rest else c :: escQL rest

/-- String-level double-quote escaping. -/
def escQ (s : String) : String := String.mk (escQL s.data)

/-! ## The remaining JavaScript string helpers -/

/-- `Array.prototype.join(sep)` / `String.intercalate`, recursively. -/
def joinSepL (sep : List Char) : List (List Char) → List Char
  | [] => []
  | [x] => x
  | x :: y :: rest => x ++ sep ++ joinSepL sep (y :: rest)

/-- `String.prototype.trim`. -/
def trimWsL (l : List Char) : List Char :=
  ((l.dropWhile wsChar).reverse.dropWhile wsChar).reverse

/-- One left-to-right pass of `split(/[,\s]+/).filter(Boolean)` where `p`
matches the separator class: `cur` holds the characters of the current run,
in reverse. -/
def splitRunsAux (p : Char → Bool) (cur : List Char) : List Char → List (List Char)
  | [] => if cur.isEmpty then [] else [cur.reverse]
  | c :: rest =>
    if p c then
      if cur.isEmpty then splitRunsAux p [] rest
      else cur.reverse :: splitRunsAux p [] rest
    else splitRunsAux p (c :: cur) rest

/-- Maximal runs of characters not satisfying `p` (the result of
`split(/[,\s]+/).filter(Boolean)` when `p` matches `[,\s]`). -/
def splitRuns (p : Char → Bool) (l : List Char) : List (List Char) :=
  splitRunsAux p [] l

/-- One left-to-right pass of `matchAll(/"([^"]+)"/g)`: `cur = none` outside
a candidate phrase; `cur = some acc` after an opening quote, with the interior
read so far in reverse.  A quote met with an empty interior re-opens at that
quote (the previous quote opened no phrase), matching the regex engine's
advance-by-one on a failed match; an unclosed quote at the end yields no
further match. -/
def quotedPhrasesAux (cur : Option (List Char)) : List Char → List (List Char)
  | [] => []
  | c :: rest =>
    match cur with
    | none =>
      if c = '"' then quotedPhrasesAux (some []) rest
      else quotedPhrasesAux none rest
    | some acc =>
      if c = '"' then
        if acc.isEmpty then quotedPhrasesAux (some []) rest
        else acc.reverse :: quotedPhrasesAux none rest
      else quotedPhrasesAux (some (c :: acc)) rest

/-- `prompt.matchAll(/"([^"]+)"/g)`: all nonempty double-quoted phrases, left
to right, non-overlapping. -/
def quotedPhrases (l : List Char) : List (List Char) :=
  quotedPhrasesAux none l

/-! ## The Jira natural-language compiler (`search_jira_nl`)

`src/mcp/mcp-jira.js` lines 185–238, and the identical pipeline of the
LangChain `JiraNaturalLanguageTool` (which differs only in two extended
status-synonym alternations), shared through the two word-list parameters. -/

/-- The status alternations of `/\b(open|unresolved|not done|to ?do)\b/` in
src/mcp/mcp-jira.js (`to ?do` is the two alternatives `todo` and `to do`). -/
def unresolvedWordsMcp : List String := ["open", "unresolved", "not done", "todo", "to do"]

/-- `/\b(done|closed|resolved)\b/` in src/mcp/mcp-jira.js. -/
def doneWordsMcp : List String := ["done", "closed", "resolved"]

/-- The LangChain tool's extended alternation
`/\b(open|unresolved|not done|to ?do|incomplete|pending)\b/`. -/
def unresolvedWordsTool : List String :=
  ["open", "unresolved", "not done", "todo", "to do", "incomplete", "pending"]

/-- The LangChain tool's extended alternation
`/\b(done|closed|resolved|completed|finished)\b/`. -/
def doneWordsTool : List String :=
  ["done", "closed", "resolved", "completed", "finished"]

/-- `prompt.match(/\b(?:in\s+)?project\s*[:=]?\s*([A-Z][A-Z0-9_]+)/i)` at one
position: the literal `project` (folded) with a word boundary before it, then
optional whitespace, an optional `:` or `=`, optional whitespace, and a
captured identifier of one ASCII letter followed by at least one more word
character.  The optional leading `in\s+` never changes whether a match exists
nor the captured text, so it is not modelled.  The capture is returned
upper-cased, as the source immediately applies `.toUpperCase()`. -/
def projectAt (prev : Option Char) (s : List Char) : Option (List Char) :=
  if boundaryBefore prev && ciPrefix "project".data s then
    let r1 := (s.drop 7).dropWhile wsChar
    let r2 := match r1 with
      | c :: t => if c = ':' || c = '=' then t.dropWhile wsChar else r1
      | [] => r1
    match r2 with
    | c :: t =>
      if isAsciiLetter c then
        let w := t.takeWhile isWordChar
        if w.isEmpty then none else some ((c :: w).map ucChar)
      else none
    | [] => none
  else none

/-- `prompt.match(/\blast\s+(\d{1,2})\s+days?/i)` at one position: `last`
with a boundary before it, whitespace, one or two digits (a longer digit run
cannot match, the mandatory following whitespace fails on the third digit),
whitespace, then `day`.  Returns the captured digits. -/
def lastNDaysAt (prev : Option Char) (s : List Char) : Option (List Char) :=
  if boundaryBefore prev && ciPrefix "last".data s then
    let r1 := s.drop 4
    let w1 := r1.takeWhile wsChar
    let r2 := r1.dropWhile wsChar
    let d := r2.takeWhile isDigitCh
    let r3 := r2.dropWhile isDigitCh
    let w2 := r3.takeWhile wsChar
    let r4 := r3.dropWhile wsChar
    if !w1.isEmpty && !d.isEmpty && d.length ≤ 2 && !w2.isEmpty &&
        ciPrefix "day".data r4 then
      some d
    else none
  else none

/-- `/\b(last|past)\s+week\b/` at one position. -/
def lastPastWeekAt (prev : Option Char) (s : List Char) : Option Unit :=
  if boundaryBefore prev && (ciPrefix "last".data s || ciPrefix "past".data s) then
    let r1 := s.drop 4
    let w := r1.takeWhile wsChar
    let r2 := r1.dropWhile wsChar
    if !w.isEmpty && ciPrefix "week".data r2 && boundaryAfter (r2.drop 4) then
      some ()
    else none
  else none

/-- `prompt.match(/\blabels?\s*[:=]\s*([\w, -]+)/i)` at one position:
`label`, an optional `s`, optional whitespace, a mandatory `:` or `=`,
optional whitespace, then a captured nonempty run of word characters, commas,
spaces and hyphens. -/
def labelsAt (prev : Option Char) (s : List Char) : Option (List Char) :=
  if boundaryBefore prev && ciPrefix "label".data s then
    let r1 := s.drop 5
    let r2 := match r1 with
      | c :: t => if lcChar c = 's' then t else r1
      | [] => r1
    match r2.dropWhile wsChar with
    | c :: t =>
      if c = ':' || c = '=' then
        let r4 := t.dropWhile wsChar
        let cap := r4.takeWhile (fun d => isWordChar d || d = ',' || d = ' ' || d = '-')
        if cap.isEmpty then none else some cap
      else none
    | [] => none
  else none

/-- The label list extracted from the captured block:
`split(/[,\s]+/).map(trim).filter(Boolean)` (the pieces contain no whitespace,
so the trims are identities). -/
def labelPieces (cap : List Char) : List (List Char) :=
  splitRuns (fun c => c = ',' || wsChar c) cap

/-- The labels the label matcher contributes for a prompt: the pieces of the
first `labels:`/`labels=` block, if any. -/
def labelsListOf (p : List Char) : List (List Char) :=
  match scanFind labelsAt none p with
  | some cap => labelPieces cap
  | none => []

/-- The condition array built by `search_jira_nl` before the free-text step
(src/mcp/mcp-jira.js lines 185–225), in push order.  `uw` and `dw` are the
two status alternations, instantiated differently by the two entry points. -/
def condListL (uw dw : List String) (p : List Char) : List (List Char) :=
  (if containsWord "assigned to me" p then ["assignee = currentUser()".data] else []) ++
  (if containsWord "reported by me" p then ["reporter = currentUser()".data] else []) ++
  (if containsWord "unassigned" p then ["assignee is EMPTY".data] else []) ++
  (if uw.any (fun w => containsWord w p) then ["resolution = Unresolved".data] else []) ++
  (if dw.any (fun w => containsWord w p) then ["statusCategory = Done".data] else []) ++
  (if containsWord "in progress" p then ["statusCategory = \"In Progress\"".data] else []) ++
  (match scanFind projectAt none p with
    | some pr => ["project = ".data ++ pr]
    | none => []) ++
  (if containsWord "bug" p then ["issuetype = \"Bug\"".data] else []) ++
  (if containsWord "story" p then ["issuetype = \"Story\"".data] else []) ++
  (if containsWord "task" p then ["issuetype = \"Task\"".data] else []) ++
  (if containsWord "critical" p then ["priority = \"Critical\"".data] else []) ++
  (if containsWord "blocker" p then ["priority = \"Blocker\"".data] else []) ++
  (if containsWord "highest" p || containsWord "p1" p then
    ["priority = \"Highest\"".data] else []) ++
  (if containsWord "high" p || containsWord "p2" p then
    ["priority = \"High\"".data] else []) ++
  (if containsWord "today" p then ["updated >= startOfDay()".data] else []) ++
  (if containsWord "yesterday" p then
    ["updated >= startOfDay(-1d) AND updated < startOfDay()".data] else []) ++
  (if (scanFind lastPastWeekAt none p).isSome then ["updated >= -1w".data] else []) ++
  (match scanFind lastNDaysAt none p with
    | some d => ["updated >= -".data ++ d ++ ['d']]
    | none => []) ++
  (if containsWord "this month" p then ["updated >= startOfMonth()".data] else []) ++
  (let ls := labelsListOf p
   if ls.isEmpty then []
   else [['('] ++
     joinSepL " OR ".data (ls.map (fun l => "labels = \"".data ++ escQL l ++ ['"'])) ++
     [')']])

/-- The free-text terms: the quoted phrases if any, else — when no condition
was extracted either — the whole prompt, escaped once at collection
(src/mcp/mcp-jira.js lines 227–232). -/
def textTermsL (uw dw : List String) (p : List Char) : List (List Char) :=
  let qs := quotedPhrases p
  if qs.isEmpty then (if (condListL uw dw p).isEmpty then [escQL p] else [])
  else qs

/-- The free-text expression: each term escaped (again) at interpolation and
wrapped in a `text ~ "…"` fragment, joined with AND
(src/mcp/mcp-jira.js lines 233–235). -/
def mkTextExprL (ts : List (List Char)) : List Char :=
  joinSepL " AND ".data (ts.map (fun t => "text ~ \"".data ++ escQL t ++ ['"']))

/-- The compiled JQL (src/mcp/mcp-jira.js line 238): conditions joined by
AND, the text expression appended when nonempty, the ordering tail, and a
final trim. -/
def jqlL (uw dw : List String) (p : List Char) : List Char :=
  let conds := condListL uw dw p
  let textExpr := mkTextExprL (textTermsL uw dw p)
  let all := conds ++ (if textExpr.isEmpty then [] else [textExpr])
  trimWsL (joinSepL " AND ".data all ++ " order by updated desc".data)

/-- `search_jira_nl` of src/mcp/mcp-jira.js: prompt → JQL. -/
def searchJiraNlJql (prompt : String) : String :=
  String.mk (jqlL unresolvedWordsMcp doneWordsMcp prompt.data)

/-- The LangChain `JiraNaturalLanguageTool` variant: identical pipeline with
the extended status alternations. -/
def jiraNlToolJql (prompt : String) : String :=
  String.mk (jqlL unresolvedWordsTool doneWordsTool prompt.data)

/-! ## The Confluence solutions compiler (`search_confluence_solutions`)

src/unnamed/part_000 lines 154–206 and the identical LangChain
`ConfluenceSolutionsTool` (src/unnamed/part_004 lines 140–196). -/

/-- The fixed default label vocabulary. -/
def defaultLabels : List String :=
  ["troubleshooting", "how-to", "kb-how-to-article", "resolution", "fix",
   "setup", "install", "configure"]

/-- The fixed title keyword vocabulary. -/
def titleKeywords : List String :=
  ["troubleshoot", "solution", "resolve", "error", "fix", "how to", "how-to",
   "setup", "install", "configure", "guide"]

/-- `Array.from(new Set(arr))`: de-duplication keeping the first occurrence
of each element, in order (the head is kept and removed from the
de-duplicated tail). -/
def dedupFirst : List String → List String
  | [] => []
  | a :: l => a :: (dedupFirst l).filter (fun b => !(b = a))

/-- `Array.from(new Set([...(labels || []), ...defaultLabels]))`. -/
def prioritizedLabels (labels : Option (List String)) : List String :=
  dedupFirst (labels.getD [] ++ defaultLabels)

/-- The label disjunction `label = "…" OR …` (unparenthesized, as the source
builds it). -/
def labelCqlOf (labels : Option (List String)) : String :=
  String.mk (joinSepL " OR ".data
    ((prioritizedLabels labels).map (fun l => "label = \"".data ++ escQL l.data ++ ['"'])))

/-- The fixed title disjunction `title ~ "…" OR …`. -/
def titleCql : String :=
  String.mk (joinSepL " OR ".data
    (titleKeywords.map (fun k => "title ~ \"".data ++ escQL k.data ++ ['"'])))

/-- The optional parenthesized space disjunction; the empty string when the
caller supplied no space (absent argument or empty array), matching
`if (spaces && spaces.length > 0)`. -/
def spaceCqlOf (spaces : Option (List String)) : String :=
  match spaces with
  | some (s :: ss) =>
    String.mk (['('] ++
      joinSepL " OR ".data
        ((s :: ss).map (fun x => "space = \"".data ++ escQL x.data ++ ['"'])) ++ [')'])
  | _ => ""

/-- The CQL fragment array (src/unnamed/part_000 lines 196–202): the fixed
`type = page`, the escaped free-text fragment, the parenthesized title and
label groups, and the space group when nonempty. -/
def cqlPartsOf (issue : String) (spaces labels : Option (List String)) : List String :=
  ["type = page",
   String.mk ("(text ~ \"".data ++ escQL issue.data ++ "\")".data),
   String.mk (['('] ++ titleCql.data ++ [')']),
   String.mk (['('] ++ (labelCqlOf labels).data ++ [')'])] ++
  (if spaceCqlOf spaces = "" then [] else [spaceCqlOf spaces])

/-- The compiled CQL (src/unnamed/part_000 line 204): fragments joined with
AND, then the ordering tail.  The caller-supplied limit plays no part in the
query string (it is sent separately as the `limit` URL parameter). -/
def confSolutionsCql (issue : String) (spaces labels : Option (List String)) : String :=
  String.mk (joinSepL " AND ".data ((cqlPartsOf issue spaces labels).map String.data) ++
    " order by lastmodified desc".data)

/-! ## Page-id extraction of `get_confluence_page`

src/mcp/mcp-confluence.js lines 64–91 (and the identical LangChain
`ConfluencePageTool`).  The WHATWG `new URL(...)` parser is an external
platform facility; it is modelled as an oracle input: either `none` (the
constructor threw, caught by the source) or the parsed record of the pieces
the code reads — the search parameters and the pathname. -/

/-- The outcome of a parsed content-fetch URL. -/
structure ParsedUrl where
  /-- `parsedUrl.searchParams` as association pairs, in order. -/
  searchParams : List (String × String)
  /-- `parsedUrl.pathname`. -/
  pathname : String
  deriving DecidableEq, Repr

/-- `searchParams.get(k)`: the first value for the key, or `none`. -/
def getParam (ps : List (String × String)) (k : String) : Option String :=
  (ps.find? (fun kv => kv.1 = k)).map (fun kv => kv.2)

/-- `pathname.split("/").filter(Boolean)`. -/
def pathSegments (pathname : String) : List String :=
  (splitRuns (fun c => c = '/') pathname.data).map String.mk

/-- `/^\d+$/` on a path segment. -/
def isNumericSeg (s : String) : Bool :=
  !s.data.isEmpty && s.data.all isDigitCh

/-- The path-derived id: find the FIRST `pages` segment; if the next segment
exists and is entirely numeric it is the id, otherwise the result is empty
(the source does not look at later `pages` segments). -/
def pagesIdOf : List String → String
  | [] => ""
  | p :: rest =>
    if p = "pages" then
      match rest with
      | next :: _ => if isNumericSeg next then next else ""
      | [] => ""
    else pagesIdOf rest

/-- `contentId` as derived by the source: the `pageId` query parameter if
present and nonempty, else the path-derived id, else empty (also empty when
the URL failed to parse). -/
def contentIdOf (u : Option ParsedUrl) : String :=
  match u with
  | none => ""
  | some pu =>
    let fromParam := (getParam pu.searchParams "pageId").getD ""
    if fromParam = "" then pagesIdOf (pathSegments pu.pathname) else fromParam

/-- The guidance text of the malformed-reference outcome. -/
def pageIdGuidance : String :=
  "Unable to extract Confluence page ID from the provided URL. Please provide a URL containing either '?pageId=...' or '/pages/\x7bid\x7d/...'."

/-- What `get_confluence_page` does after URL parsing: either the distinct
malformed-reference outcome (returned without any request to the backing
system), or a backend fetch of the resolved id. -/
inductive PageFetchOutcome where
  | cannotResolve (guidance : String) : PageFetchOutcome
  | fetchContent (contentId : String) : PageFetchOutcome
  deriving DecidableEq, Repr

/-- The id-resolution step of `get_confluence_page`
(src/mcp/mcp-confluence.js lines 64–91). -/
def getConfluencePageStep (u : Option ParsedUrl) : PageFetchOutcome :=
  let cid := contentIdOf u
  if cid = "" then .cannotResolve pageIdGuidance else .fetchContent cid

/-! ## Excerpt shaping of `search_confluence_solutions`

src/unnamed/part_000 lines 238–243:
`rawExcerpt.replace(/<[^>]+>/g, " ").replace(/\s+/g, " ").trim().slice(0, 400)`. -/

/-- One left-to-right pass of `replace(/<[^>]+>/g, " ")`.  `pending = none`:
no open `<`; `pending = some acc`: a `<` was read and `acc` (reversed, free of
`>`) is the interior read so far.  A `>` with a nonempty interior closes the
match, which becomes one space; a `>` right after the `<` matches nothing and
both characters stay; an unclosed `<` at the end stays literally together
with its interior. -/
def stripTagsAux (pending : Option (List Char)) : List Char → List Char
  | [] =>
    match pending with
    | none => []
    | some acc => '<' :: acc.reverse
  | c :: rest =>
    match pending with
    | none =>
      if c = '<' then stripTagsAux (some []) rest
      else c :: stripTagsAux none rest
    | some acc =>
      if c = '>' then
        if acc.isEmpty then '<' :: '>' :: stripTagsAux none rest
        else ' ' :: stripTagsAux none rest
      else stripTagsAux (some (c :: acc)) rest

/-- `replace(/<[^>]+>/g, " ")`: each leftmost `<`, a nonempty run of
non-`>` characters, and a closing `>` collapse to one space; a `<` that opens
no such tag is kept. -/
def stripTags (l : List Char) : List Char :=
  stripTagsAux none l

/-- One left-to-right pass of `replace(/\s+/g, " ")`: `afterWs` records that
the previous character was whitespace (already emitted as the run's one
space). -/
def collapseWsAux (afterWs : Bool) : List Char → List Char
  | [] => []
  | c :: rest =>
    if wsChar c then
      if afterWs then collapseWsAux true rest
      else ' ' :: collapseWsAux true rest
    else c :: collapseWsAux false rest

/-- `replace(/\s+/g, " ")`: every maximal whitespace run becomes one space. -/
def collapseWs (l : List Char) : List Char :=
  collapseWsAux false l

/-- The full excerpt shaping pipeline (strip tags, collapse whitespace, trim,
truncate to 400). -/
def shapeExcerptL (raw : List Char) : List Char :=
  (trimWsL (collapseWs (stripTags raw))).take 400

/-- String-level excerpt shaping, as in the source's result mapping. -/
def shapeExcerpt (raw : String) : String := String.mk (shapeExcerptL raw.data)

/-! ## Property vocabulary -/

/-- `pat` occurs as a contiguous substring. -/
def hasSubstr (pat : List Char) : List Char → Bool
  | [] => pat.isEmpty
  | c :: rest => pat.isPrefixOf (c :: rest) || hasSubstr pat rest

/-- Every double quote of the list is immediately preceded by a backslash:
the quote character appears only in backslash-escaped form. -/
def quoteEscapedL (l : List Char) : Prop :=
  ∀ pre post, l = pre ++ '"' :: post → ∃ pre', pre = pre' ++ ['\\']

/-- Some `pages` segment is followed by an entirely numeric segment (what the
claim means by "a /pages/<id> path segment whose <id> is entirely numeric"). -/
def hasPagesNumeric : List String → Bool
  | [] => false
  | p :: rest =>
    (p = "pages" && (match rest with | next :: _ => isNumericSeg next | [] => false)) ||
    hasPagesNumeric rest

/-- No two adjacent whitespace characters (no whitespace run of length two or
more). -/
def noWsRunB : List Char → Bool
  | a :: b :: rest => (!(wsChar a && wsChar b)) && noWsRunB (b :: rest)
  | _ => true

/-- No substring of the shape `<[^>]+>` (an HTML-tag-like sequence: `<`, a
nonempty interior free of `>`, then `>`). -/
def noTagL (s : List Char) : Prop :=
  ∀ pre mid post, mid ≠ [] → '>' ∉ mid → s ≠ pre ++ '<' :: (mid ++ '>' :: post)

/-- After every `<` the very next character is `>` or no `>` occurs at all:
the invariant the tag-stripping pass establishes (it implies `noTagL`). -/
def ltOkL (s : List Char) : Prop :=
  ∀ pre post, s = pre ++ '<' :: post → (∃ t, post = '>' :: t) ∨ '>' ∉ post

/-! ## Helper lemmas -/

theorem dropWhile_cons_self {p : Char → Bool} {c : Char} {l : List Char}
    (hc : p c = false) : (c :: l).dropWhile p = c :: l := by
  simp [List.dropWhile_cons, hc]

theorem trimWsL_eq_self {l : List Char}
    (h1 : ∀ c, l.head? = some c → wsChar c = false)
    (h2 : ∀ c, l.getLast? = some c → wsChar c = false) : trimWsL l = l := by
  cases l with
  | nil => rfl
  | cons a t =>
    have ha : wsChar a = false := h1 a rfl
    have hrev : (a :: t).reverse.dropWhile wsChar = (a :: t).reverse := by
      cases hr : (a :: t).reverse with
      | nil => simp at hr
      | cons b s =>
        have hb : (a :: t).getLast? = some b := by
          rw [← List.head?_reverse, hr]; rfl
        exact dropWhile_cons_self (h2 b hb)
    unfold trimWsL
    rw [dropWhile_cons_self ha, hrev, List.reverse_reverse]

theorem quoteEscaped_escQL (s : List Char) : quoteEscapedL (escQL s) := by
  induction s with
  | nil => intro pre post h; exact absurd h (by simp [escQL])
  | cons c rest ih =>
    intro pre post h
    by_cases hc : c = '"'
    · subst hc
      simp only [escQL, if_pos rfl] at h
      cases pre with
      | nil => simp at h
      | cons a pre1 =>
        cases pre1 with
        | nil =>
          simp at h
          exact ⟨[], by simp [← h.1]⟩
        | cons b pre2 =>
          simp at h
          obtain ⟨q, hq⟩ := ih pre2 post h.2.2
          exact ⟨'\\' :: '"' :: q, by simp [← h.1, ← h.2.1, hq]⟩
    · simp only [escQL, if_neg hc] at h
      cases pre with
      | nil => simp at h; exact absurd h.1 hc
      | cons a pre1 =>
        simp at h
        obtain ⟨q, hq⟩ := ih pre1 post h.2
        exact ⟨c :: q, by simp [h.1, hq]⟩

theorem pagesIdOf_eq_empty : ∀ {parts : List String},
    hasPagesNumeric parts = false → pagesIdOf parts = "" := by
  intro parts
  induction parts with
  | nil => intro _; rfl
  | cons p rest ih =>
    intro h
    simp only [hasPagesNumeric, Bool.or_eq_false_iff, Bool.and_eq_false_iff] at h
    obtain ⟨h1, h2⟩ := h
    simp only [pagesIdOf]
    by_cases hp : p = "pages"
    · subst hp
      rcases h1 with h1 | h1
      · simp at h1
      · cases rest with
        | nil => simp
        | cons next t => simp_all
    · simp [hp, ih h2]

theorem mem_dedupFirst {x : String} : ∀ {l : List String},
    x ∈ dedupFirst l ↔ x ∈ l := by
  intro l
  induction l with
  | nil => simp [dedupFirst]
  | cons a t ih =>
    simp only [dedupFirst, List.mem_cons, List.mem_filter]
    constructor
    · rintro (rfl | ⟨hx, _⟩)
      · exact .inl rfl
      · exact .inr (ih.mp hx)
    · rintro (rfl | hx)
      · exact .inl rfl
      · by_cases hxa : x = a
        · exact .inl hxa
        · exact .inr ⟨ih.mpr hx, by simp [hxa]⟩

theorem nodup_dedupFirst : ∀ (l : List String), (dedupFirst l).Nodup := by
  intro l
  induction l with
  | nil => simp [dedupFirst]
  | cons a t ih =>
    simp only [dedupFirst, List.nodup_cons]
    refine ⟨fun hmem => ?_, ih.filter _⟩
    simp [List.mem_filter] at hmem

theorem digit_not_ws {c : Char} (h : isDigitCh c = true) : wsChar c = false := by
  simp only [isDigitCh, Bool.and_eq_true, decide_eq_true_eq] at h
  obtain ⟨h1, h2⟩ := h
  rw [Char.le_def] at h1 h2
  have h48 : 48 ≤ c.toNat := UInt32.le_def.mp h1
  have h57 : c.toNat ≤ 57 := UInt32.le_def.mp h2
  simp only [wsChar, Bool.or_eq_false_iff, Bool.and_eq_false_iff, decide_eq_false_iff_not]
  omega

theorem takeWhile_append_of_all {p : Char → Bool} :
    ∀ {l₁ l₂ : List Char}, (∀ c ∈ l₁, p c = true) →
      (l₁ ++ l₂).takeWhile p = l₁ ++ l₂.takeWhile p := by
  intro l₁ l₂ h
  induction l₁ with
  | nil => simp
  | cons a t ih =>
    have ha : p a = true := h a (List.mem_cons_self a t)
    simp only [List.cons_append, List.takeWhile_cons, ha, if_true]
    rw [ih (fun c hc => h c (List.mem_cons_of_mem a hc))]

theorem dropWhile_append_of_all {p : Char → Bool} :
    ∀ {l₁ l₂ : List Char}, (∀ c ∈ l₁, p c = true) →
      (l₁ ++ l₂).dropWhile p = l₂.dropWhile p := by
  intro l₁ l₂ h
  induction l₁ with
  | nil => simp
  | cons a t ih =>
    have ha : p a = true := h a (List.mem_cons_self a t)
    simp only [List.cons_append, List.dropWhile_cons, ha, if_true]
    exact ih (fun c hc => h c (List.mem_cons_of_mem a hc))

theorem takeWhile_nil_of_head {p : Char → Bool} {l : List Char}
    (h : ∀ c ∈ l.take 1, p c = false) : l.takeWhile p = [] := by
  cases l with
  | nil => rfl
  | cons a t =>
    have ha : p a = false := h a (by simp)
    simp [List.takeWhile_cons, ha]

theorem dropWhile_self_of_head {p : Char → Bool} {l : List Char}
    (h : ∀ c ∈ l.take 1, p c = false) : l.dropWhile p = l := by
  cases l with
  | nil => rfl
  | cons a t =>
    have ha : p a = false := h a (by simp)
    simp [List.dropWhile_cons, ha]

theorem lastNDaysAt_some {prev : Option Char} {s cap : List Char}
    (h : lastNDaysAt prev s = some cap) :
    cap ≠ [] ∧ cap.length ≤ 2 ∧ ∀ c ∈ cap, isDigitCh c = true := by
  unfold lastNDaysAt at h
  split at h
  · simp only [] at h
    split at h
    · rename_i hguard
      injection h with hdd
      subst hdd
      simp only [Bool.and_eq_true, Bool.not_eq_true', decide_eq_true_eq] at hguard
      obtain ⟨⟨⟨⟨hw1, hd1⟩, hlen2⟩, hw2⟩, hcip⟩ := hguard
      refine ⟨fun hcap => ?_, hlen2, fun c hc => List.mem_takeWhile_imp hc⟩
      rw [hcap] at hd1
      simp at hd1
    · exact absurd h (by simp)
  · exact absurd h (by simp)

theorem scanFind_some_imp {α : Type} {P : α → Prop}
    (f : Option Char → List Char → Option α)
    (hf : ∀ prev s a, f prev s = some a → P a) :
    ∀ (prev : Option Char) (s : List Char) (a : α),
      scanFind f prev s = some a → P a := by
  intro prev s
  induction s generalizing prev with
  | nil => intro a h; simp [scanFind] at h
  | cons c rest ih =>
    intro a h
    unfold scanFind at h
    cases hf0 : f prev (c :: rest) with
    | some b =>
      rw [hf0] at h
      injection h with hb
      subst hb
      exact hf _ _ _ hf0
    | none =>
      rw [hf0] at h
      exact ih (some c) a h

theorem lastNDaysAt_long_number_none (prev : Option Char) (w n r : List Char)
    (hw : ∀ c ∈ w, wsChar c = true) (hn : ∀ c ∈ n, isDigitCh c = true)
    (hn3 : 3 ≤ n.length) (hr : ∀ c ∈ r.take 1, isDigitCh c = false) :
    lastNDaysAt prev ("last".data ++ (w ++ (n ++ r))) = none := by
  have hnr1 : ∀ c ∈ (n ++ r).take 1, wsChar c = false := by
    intro c hc
    cases n with
    | nil => simp at hn3
    | cons nh nt =>
      simp at hc
      rw [hc]
      exact digit_not_ws (hn nh (List.mem_cons_self nh nt))
  have hdrop : ("last".data ++ (w ++ (n ++ r))).drop 4 = w ++ (n ++ r) := rfl
  have htw1 : (w ++ (n ++ r)).takeWhile wsChar = w := by
    rw [takeWhile_append_of_all hw, takeWhile_nil_of_head hnr1, List.append_nil]
  have hdw1 : (w ++ (n ++ r)).dropWhile wsChar = n ++ r := by
    rw [dropWhile_append_of_all hw, dropWhile_self_of_head hnr1]
  have htd : (n ++ r).takeWhile isDigitCh = n := by
    rw [takeWhile_append_of_all hn, takeWhile_nil_of_head hr, List.append_nil]
  have hlen : ¬ (n.length ≤ 2) := by omega
  unfold lastNDaysAt
  split
  · simp only [hdrop, htw1, hdw1, htd]
    simp [hlen]
  · rfl

theorem ne_project_frag (pr : List Char) :
    "priority = \"High\"".data ≠ "project = ".data ++ pr := by
  intro h
  have h2 := congrArg (fun l => l.get? 2) h
  simp at h2

theorem ne_lastn_frag (nd : List Char) :
    "priority = \"High\"".data ≠ "updated >= -".data ++ nd ++ ['d'] := by
  intro h
  have h2 := congrArg (fun l => l.get? 0) h
  simp at h2

theorem ne_group_frag (x : List Char) :
    "priority = \"High\"".data ≠ ['('] ++ x ++ [')'] := by
  intro h
  have h2 := congrArg (fun l => l.get? 0) h
  simp at h2

/-! ### Lemmas for the excerpt-shaping pipeline (C9) -/


theorem ltOk_nil : ltOkL [] := by
  intro pre post h
  exact absurd h (by simp)

theorem ltOk_of_not_mem {l : List Char} (h : '>' ∉ l) : ltOkL l := by
  intro pre post heq
  right
  intro hgt
  exact h (by rw [heq]; simp [hgt])

theorem ltOk_tail {a : Char} {l : List Char} (h : ltOkL (a :: l)) : ltOkL l := by
  intro pre post heq
  exact h (a :: pre) post (by simp [heq])

theorem ltOk_cons {a : Char} {l : List Char}
    (h1 : a = '<' → (∃ t, l = '>' :: t) ∨ '>' ∉ l) (h2 : ltOkL l) :
    ltOkL (a :: l) := by
  intro pre post heq
  cases pre with
  | nil =>
    rw [List.nil_append] at heq
    injection heq with ha hl
    subst hl
    exact h1 ha
  | cons b pre' =>
    rw [List.cons_append] at heq
    injection heq with hb hrest
    exact h2 pre' post hrest

theorem gt_not_mem_stripTagsAux : ∀ (s : List Char) (pending : Option (List Char)),
    '>' ∉ s → (∀ acc, pending = some acc → '>' ∉ acc) → '>' ∉ stripTagsAux pending s := by
  intro s
  induction s with
  | nil =>
    intro pending hs hp
    cases pending with
    | none => simp [stripTagsAux]
    | some acc =>
      intro hmem
      rcases List.mem_cons.mp hmem with h | h
      · exact absurd h (by decide)
      · exact hp acc rfl (List.mem_reverse.mp h)
  | cons c rest ih =>
    intro pending hs hp
    have hcne : ('>' : Char) ≠ c := fun he => hs (he ▸ List.mem_cons_self c rest)
    have hs' : '>' ∉ rest := fun hm => hs (List.mem_cons_of_mem c hm)
    cases pending with
    | none =>
      by_cases hc : c = '<'
      · simp only [stripTagsAux, if_pos hc]
        exact ih (some []) hs' (by intro acc ha; injection ha with ha'; subst ha'; simp)
      · simp only [stripTagsAux, if_neg hc]
        intro hmem
        rcases List.mem_cons.mp hmem with h | h
        · exact hcne h
        · exact ih none hs' (by simp) h
    | some acc =>
      by_cases hc : c = '>'
      · exact absurd hc.symm hcne
      · simp only [stripTagsAux, if_neg hc]
        refine ih (some (c :: acc)) hs' ?_
        intro acc' ha
        injection ha with ha'
        subst ha'
        intro hm
        rcases List.mem_cons.mp hm with h | h
        · exact hcne h
        · exact hp acc rfl h

theorem ltOk_stripTagsAux : ∀ (s : List Char) (pending : Option (List Char)),
    (∀ acc, pending = some acc → '>' ∉ acc) → ltOkL (stripTagsAux pending s) := by
  intro s
  induction s with
  | nil =>
    intro pending hp
    cases pending with
    | none => exact ltOk_nil
    | some acc =>
      have hacc : '>' ∉ acc.reverse := fun h => hp acc rfl (List.mem_reverse.mp h)
      exact ltOk_cons (fun _ => .inr hacc) (ltOk_of_not_mem hacc)
  | cons c rest ih =>
    intro pending hp
    cases pending with
    | none =>
      by_cases hc : c = '<'
      · simp only [stripTagsAux, if_pos hc]
        exact ih (some []) (fun acc ha => by injection ha with h; subst h; simp)
      · simp only [stripTagsAux, if_neg hc]
        exact ltOk_cons (fun h => absurd h hc) (ih none (by simp))
    | some acc =>
      by_cases hc : c = '>'
      · simp only [stripTagsAux, if_pos hc]
        by_cases ha : acc.isEmpty
        · rw [if_pos ha]
          refine ltOk_cons (fun _ => .inl ⟨stripTagsAux none rest, rfl⟩) ?_
          exact ltOk_cons (fun h => absurd h (by decide)) (ih none (by simp))
        · rw [if_neg ha]
          exact ltOk_cons (fun h => absurd h (by decide)) (ih none (by simp))
      · simp only [stripTagsAux, if_neg hc]
        refine ih (some (c :: acc)) ?_
        intro acc' ha
        injection ha with h
        subst h
        intro hm
        rcases List.mem_cons.mp hm with h | h
        · exact hc h.symm
        · exact hp acc rfl h

theorem gt_not_mem_collapseWsAux : ∀ (s : List Char) (b : Bool),
    '>' ∉ s → '>' ∉ collapseWsAux b s := by
  intro s
  induction s with
  | nil => intro b _; simp [collapseWsAux]
  | cons c rest ih =>
    intro b hs
    have hcne : ('>' : Char) ≠ c := fun he => hs (he ▸ List.mem_cons_self c rest)
    have hs' : '>' ∉ rest := fun hm => hs (List.mem_cons_of_mem c hm)
    by_cases hw : wsChar c = true
    · cases b with
      | true => simpa [collapseWsAux, hw] using ih true hs'
      | false =>
        simp only [collapseWsAux, hw, if_true, if_false]
        intro hm
        rcases List.mem_cons.mp hm with h | h
        · exact absurd h (by decide)
        · exact ih true hs' h
    · simp only [collapseWsAux, hw, if_false]
      intro hm
      rcases List.mem_cons.mp hm with h | h
      · exact hcne h
      · exact ih false hs' h

theorem ltOk_collapseWsAux : ∀ (s : List Char) (b : Bool),
    ltOkL s → ltOkL (collapseWsAux b s) := by
  intro s
  induction s with
  | nil => intro b _; exact ltOk_nil
  | cons c rest ih =>
    intro b h
    by_cases hw : wsChar c = true
    · have hT : ltOkL (collapseWsAux true rest) := ih true (ltOk_tail h)
      cases b with
      | true => simpa [collapseWsAux, hw] using hT
      | false =>
        simp only [collapseWsAux, hw, if_true, if_false]
        exact ltOk_cons (fun hsp => absurd hsp (by decide)) hT
    · simp only [collapseWsAux, hw, if_false]
      refine ltOk_cons (fun hc => ?_) (ih false (ltOk_tail h))
      subst hc
      rcases h [] rest rfl with ⟨t, ht⟩ | hnot
      · subst ht
        left
        refine ⟨collapseWsAux false t, ?_⟩
        simp [collapseWsAux, show wsChar '>' = false by decide]
      · right
        exact gt_not_mem_collapseWsAux rest false hnot


theorem collapseWsAux_true_head : ∀ (s : List Char) (c : Char) (t : List Char),
    collapseWsAux true s = c :: t → wsChar c = false := by
  intro s
  induction s with
  | nil => intro c t h; simp [collapseWsAux] at h
  | cons d rest ih =>
    intro c t h
    by_cases hw : wsChar d = true
    · simp only [collapseWsAux, hw, if_true] at h
      exact ih c t h
    · simp only [collapseWsAux, hw, if_false] at h
      injection h with h1 _
      subst h1
      simpa using hw

theorem noWsRunB_cons {a : Char} {l : List Char}
    (h1 : ∀ b t, l = b :: t → (wsChar a && wsChar b) = false)
    (h2 : noWsRunB l = true) : noWsRunB (a :: l) = true := by
  cases l with
  | nil => rfl
  | cons b t =>
    simp only [noWsRunB, Bool.and_eq_true, Bool.not_eq_true']
    exact ⟨h1 b t rfl, h2⟩

theorem noWsRunB_tail {a : Char} {l : List Char} (h : noWsRunB (a :: l) = true) :
    noWsRunB l = true := by
  cases l with
  | nil => rfl
  | cons b t =>
    simp only [noWsRunB, Bool.and_eq_true] at h
    exact h.2

theorem noWsRunB_collapseWsAux : ∀ (s : List Char) (b : Bool),
    noWsRunB (collapseWsAux b s) = true := by
  intro s
  induction s with
  | nil => intro b; rfl
  | cons c rest ih =>
    intro b
    by_cases hw : wsChar c = true
    · cases b with
      | true => simpa [collapseWsAux, hw] using ih true
      | false =>
        simp only [collapseWsAux, hw, if_true, if_false]
        refine noWsRunB_cons (fun b' t' hbt => ?_) (ih true)
        rw [collapseWsAux_true_head rest b' t' hbt, Bool.and_false]
    · simp only [collapseWsAux, hw, if_false]
      refine noWsRunB_cons (fun b' t' hbt => ?_) (ih false)
      simp at hw
      rw [hw, Bool.false_and]

theorem noWsRunB_take : ∀ (n : Nat) (l : List Char),
    noWsRunB l = true → noWsRunB (l.take n) = true := by
  intro n
  induction n with
  | zero => intro l _; rfl
  | succ n ih =>
    intro l h
    cases l with
    | nil => rfl
    | cons a t =>
      simp only [List.take_succ_cons]
      refine noWsRunB_cons (fun b' t' hbt => ?_) (ih t (noWsRunB_tail h))
      cases t with
      | nil => simp at hbt
      | cons b2 t2 =>
        cases n with
        | zero => simp at hbt
        | succ m =>
          simp only [List.take_succ_cons] at hbt
          injection hbt with h1 _
          subst h1
          simp only [noWsRunB, Bool.and_eq_true, Bool.not_eq_true'] at h
          exact h.1

theorem noWsRunB_suffix : ∀ {t l : List Char}, t <:+ l →
    noWsRunB l = true → noWsRunB t = true := by
  intro t l h
  obtain ⟨r, rfl⟩ := h
  induction r with
  | nil => intro hl; simpa using hl
  | cons a r' ih => intro hl; exact ih (noWsRunB_tail hl)

theorem noWsRunB_mid {t l : List Char} (h : t <:+: l) (hl : noWsRunB l = true) :
    noWsRunB t = true := by
  obtain ⟨pre, suf, heq⟩ := h
  have h1 : noWsRunB (t ++ suf) = true := by
    refine noWsRunB_suffix ⟨pre, ?_⟩ hl
    rw [← heq, List.append_assoc]
  have h2 : (t ++ suf).take t.length = t := List.take_left t suf
  rw [← h2]
  exact noWsRunB_take _ _ h1

theorem ltOk_of_prefix {t l : List Char} (hp : t <+: l) (h : ltOkL l) : ltOkL t := by
  obtain ⟨r, rfl⟩ := hp
  intro pre post heq
  rcases h pre (post ++ r) (by rw [heq]; simp) with ⟨u, hu⟩ | hnot
  · cases post with
    | nil => right; simp
    | cons b bs =>
      left
      rw [List.cons_append] at hu
      injection hu with h1 _
      exact ⟨bs, by rw [h1]⟩
  · right
    intro hgt
    exact hnot (List.mem_append_left _ hgt)

theorem ltOk_of_suffix {t l : List Char} (hs : t <:+ l) (h : ltOkL l) : ltOkL t := by
  obtain ⟨r, rfl⟩ := hs
  intro pre post heq
  exact h (r ++ pre) post (by rw [heq]; simp)

theorem ltOk_mid {t l : List Char} (hi : t <:+: l) (h : ltOkL l) : ltOkL t := by
  obtain ⟨pre, suf, heq⟩ := hi
  have h1 : ltOkL (t ++ suf) := by
    refine ltOk_of_suffix ⟨pre, ?_⟩ h
    rw [← heq, List.append_assoc]
  exact ltOk_of_prefix ⟨suf, rfl⟩ h1

theorem noTag_of_ltOk {s : List Char} (h : ltOkL s) : noTagL s := by
  intro pre mid post hmid hgt heq
  rcases h pre (mid ++ '>' :: post) heq with ⟨u, hu⟩ | hnot
  · cases mid with
    | nil => exact hmid rfl
    | cons m ms =>
      rw [List.cons_append] at hu
      injection hu with h1 _
      exact hgt (by rw [h1]; exact List.mem_cons_self _ _)
  · exact hnot (by simp)

theorem trimWsL_prefix_dropWhile (l : List Char) :
    trimWsL l <+: l.dropWhile wsChar := by
  have h2 : (l.dropWhile wsChar).reverse.dropWhile wsChar <:+ (l.dropWhile wsChar).reverse :=
    List.dropWhile_suffix wsChar
  rw [← List.reverse_suffix]
  simpa [trimWsL] using h2

theorem trimWsL_mid (l : List Char) : trimWsL l <:+: l :=
  (trimWsL_prefix_dropWhile l).isInfix.trans (List.dropWhile_suffix wsChar).isInfix

theorem trimWsL_head_not_ws {l : List Char} {c : Char} {t : List Char}
    (h : trimWsL l = c :: t) : wsChar c = false := by
  obtain ⟨r, hr⟩ := trimWsL_prefix_dropWhile l
  rw [h] at hr
  have hne : l.dropWhile wsChar ≠ [] := by rw [← hr]; simp
  have hh := List.head_dropWhile_not wsChar l (w := hne)
  have h4 : (List.dropWhile wsChar l).head? = some c := by rw [← hr]; rfl
  rw [List.head?_eq_head hne] at h4
  injection h4 with h5
  rw [h5] at hh
  exact hh

theorem trimWsL_getLast_not_ws {l : List Char} {c : Char}
    (h : (trimWsL l).getLast? = some c) : wsChar c = false := by
  unfold trimWsL at h
  rw [List.getLast?_reverse] at h
  cases hd : List.dropWhile wsChar (l.dropWhile wsChar).reverse with
  | nil => rw [hd] at h; simp at h
  | cons a t =>
    rw [hd] at h
    have hne : List.dropWhile wsChar (l.dropWhile wsChar).reverse ≠ [] := by
      rw [hd]; simp
    have ha := List.head_dropWhile_not wsChar (l.dropWhile wsChar).reverse (w := hne)
    have h4 : (List.dropWhile wsChar (l.dropWhile wsChar).reverse).head? = some a := by
      rw [hd]; rfl
    rw [List.head?_eq_head hne] at h4
    injection h4 with h5
    rw [h5] at ha
    have h6 : a = c := by simpa using h
    rw [← h6]
    exact ha

/-! ## Claims about concrete prompts (scenario claims) -/

/-- Claim C3 does not hold on the code: on the prompt
`"show issues assigned to me last week in ENG"` the compiled JQL (for both
the MCP server and the LangChain tool instance) carries only the assignee and
recency conditions — no `project = ENG` fragment appears, because the scope
matcher requires a literal `project` token. -/
theorem claim_C3_counterexample :
    searchJiraNlJql "show issues assigned to me last week in ENG" =
      "assignee = currentUser() AND updated >= -1w order by updated desc" ∧
    jiraNlToolJql "show issues assigned to me last week in ENG" =
      "assignee = currentUser() AND updated >= -1w order by updated desc" ∧
    hasSubstr "project = ENG".data
      (searchJiraNlJql "show issues assigned to me last week in ENG").data = false := by
  decide

/-- Claim C3, amended: the prompt as given compiles to
`assignee = currentUser() AND updated >= -1w` with the order-by-updated-
descending tail and no project condition; the claimed three-condition set
{assignee, project, updated} is produced once the prompt carries a literal
`project` token, as in `"show issues assigned to me last week in project
ENG"`. -/
theorem claim_C3_amended :
    searchJiraNlJql "show issues assigned to me last week in project ENG" =
      "assignee = currentUser() AND project = ENG AND updated >= -1w order by updated desc" ∧
    jiraNlToolJql "show issues assigned to me last week in project ENG" =
      "assignee = currentUser() AND project = ENG AND updated >= -1w order by updated desc" ∧
    searchJiraNlJql "show issues assigned to me last week in ENG" =
      "assignee = currentUser() AND updated >= -1w order by updated desc" := by
  decide

/-- Claim C5: calling the content-solution compiler with `labels = []` and
`spaces = []` yields a query byte-identical to omitting both arguments, for
every issue text; the fragment list is identical too, so no empty OR-group is
emitted. -/
theorem claim_C5_empty_args_eq_absent (issue : String) :
    confSolutionsCql issue (some []) (some []) = confSolutionsCql issue none none ∧
    cqlPartsOf issue (some []) (some []) = cqlPartsOf issue none none ∧
    spaceCqlOf (some []) = "" := ⟨rfl, rfl, rfl⟩

/-- Claim C6: both compile steps are pure functions of their arguments — the
embedding is deterministic by construction (the source consults no state
other than its arguments in these lines), so compiling twice yields
byte-identical query strings. -/
theorem claim_C6_deterministic (prompt issue : String)
    (spaces labels : Option (List String)) :
    searchJiraNlJql prompt = searchJiraNlJql prompt ∧
    jiraNlToolJql prompt = jiraNlToolJql prompt ∧
    confSolutionsCql issue spaces labels = confSolutionsCql issue spaces labels :=
  ⟨rfl, rfl, rfl⟩

/-- Claim C7 does not hold on the code: on `"last 200 days"` the three-digit
number does not pass through — the recency matcher (`\d{1,2}` followed by
mandatory whitespace) fails to match at all, no `updated >= -…` fragment is
produced, and the prompt falls back to a full-text query. -/
theorem claim_C7_counterexample :
    searchJiraNlJql "last 200 days" = "text ~ \"last 200 days\" order by updated desc" ∧
    hasSubstr "updated >= -".data (searchJiraNlJql "last 200 days").data = false := by
  decide

/-- Claim C7, amended: the `last N days` matcher fires only for a one- or
two-digit N, which it passes through verbatim with no semantic upper bound;
for a number of three or more digits the matcher does not fire at all and no
relative-time fragment is produced.  Universally: whatever number the scan
ever captures on any prompt is a nonempty all-digit string of at most two
digits and goes verbatim into the `updated >= -Nd` condition (in either
status-word configuration); at any position reading `last`, whitespace, a
digit run of length at least three, and then a non-digit (or the end), the
matcher yields no match — whatever precedes and follows; and concretely
`last 99 days` compiles to `updated >= -99d` while `last 200 days` falls back
to the full-text query. -/
theorem claim_C7_amended (uw dw : List String) (p cap : List Char)
    (prev : Option Char) (w n r : List Char)
    (hd : scanFind lastNDaysAt none p = some cap)
    (hw : ∀ c ∈ w, wsChar c = true) (hn : ∀ c ∈ n, isDigitCh c = true)
    (hn3 : 3 ≤ n.length) (hr : ∀ c ∈ r.take 1, isDigitCh c = false) :
    (cap ≠ [] ∧ cap.length ≤ 2 ∧ ∀ c ∈ cap, isDigitCh c = true) ∧
    ("updated >= -".data ++ cap ++ ['d']) ∈ condListL uw dw p ∧
    lastNDaysAt prev ("last".data ++ (w ++ (n ++ r))) = none ∧
    searchJiraNlJql "last 99 days" = "updated >= -99d order by updated desc" ∧
    searchJiraNlJql "last 200 days" =
      "text ~ \"last 200 days\" order by updated desc" := by
  refine ⟨scanFind_some_imp lastNDaysAt (fun _ _ _ h => lastNDaysAt_some h) none p cap hd,
    ?_, lastNDaysAt_long_number_none prev w n r hw hn hn3 hr, by decide, by decide⟩
  simp [condListL, hd, List.mem_append]

/-- Witness for the amended C7: on `last 15 days` the scan captures `15`
(nonempty, two digits, all digits) and the verbatim fragment is a condition;
the position matcher rejects `last 200 days` read at its own position; and
the two concrete compiles behave as stated. -/
theorem claim_C7_witness :
    (("15".data : List Char) ≠ [] ∧ ("15".data : List Char).length ≤ 2 ∧
      ∀ c ∈ ("15".data : List Char), isDigitCh c = true) ∧
    ("updated >= -".data ++ "15".data ++ ['d']) ∈
      condListL unresolvedWordsMcp doneWordsMcp "last 15 days".data ∧
    lastNDaysAt none ("last".data ++ ([' '] ++ ("200".data ++ " days".data))) = none ∧
    searchJiraNlJql "last 99 days" = "updated >= -99d order by updated desc" ∧
    searchJiraNlJql "last 200 days" =
      "text ~ \"last 200 days\" order by updated desc" :=
  claim_C7_amended unresolvedWordsMcp doneWordsMcp "last 15 days".data "15".data
    none [' '] "200".data " days".data
    (by decide) (by decide) (by decide) (by decide) (by decide)

/-! ## C8: malformed content-fetch references -/

/-- Claim C8: for every content-fetch URL carrying neither a `pageId` query
parameter nor a `pages` path segment followed by an entirely numeric segment,
`get_confluence_page` resolves no content id and returns the distinct
cannot-resolve outcome with its guidance text — no backend request is issued
(the outcome is not the `fetchContent` constructor) and the step is a total
function (nothing is thrown); the same outcome results when URL parsing
itself failed (the `none` case, the source's caught constructor throw). -/
theorem claim_C8_malformed_reference (pu : ParsedUrl)
    (h1 : pu.searchParams.all (fun kv => !(kv.1 = "pageId")) = true)
    (h2 : hasPagesNumeric (pathSegments pu.pathname) = false) :
    getConfluencePageStep (some pu) = .cannotResolve pageIdGuidance ∧
    getConfluencePageStep none = .cannotResolve pageIdGuidance := by
  constructor
  · have hfind : pu.searchParams.find? (fun kv => kv.1 = "pageId") = none := by
      rw [List.find?_eq_none]
      intro kv hkv
      have := List.all_eq_true.mp h1 kv hkv
      simpa using this
    simp [getConfluencePageStep, contentIdOf, getParam, hfind, pagesIdOf_eq_empty h2]
  · rfl

/-- Witness for C8 at a concrete URL (`/wiki/display/TeamPage` with an
unrelated query parameter): the outcome is the guidance-carrying
cannot-resolve value. -/
theorem claim_C8_witness :
    getConfluencePageStep (some ⟨[("space", "ENG")], "/wiki/display/TeamPage"⟩) =
      .cannotResolve pageIdGuidance ∧
    getConfluencePageStep none = .cannotResolve pageIdGuidance :=
  claim_C8_malformed_reference ⟨[("space", "ENG")], "/wiki/display/TeamPage"⟩
    (by decide) (by decide)

/-! ## C2: the full-text fallback -/

/-- Claim C2 does not hold letter for letter: on the one-character prompt
`"` (which fires no condition matcher and contains no quoted phrase) the
single full-text fragment's literal is the prompt escaped twice (`\\"`), not
the escaped prompt (`\"`). -/
theorem claim_C2_counterexample :
    condListL unresolvedWordsMcp doneWordsMcp "\"".data = [] ∧
    quotedPhrases "\"".data = [] ∧
    searchJiraNlJql "\"" =
      String.mk ("text ~ \"".data ++ escQL (escQL "\"".data) ++ "\" order by updated desc".data) ∧
    searchJiraNlJql "\"" ≠
      String.mk ("text ~ \"".data ++ escQL "\"".data ++ "\" order by updated desc".data) := by
  decide

/-- Claim C2, amended: for every prompt firing no condition matcher and
containing no double-quoted phrase, the compiled query is exactly one
full-text fragment whose literal is the whole prompt escaped once at
collection and once more at interpolation (identical to the singly-escaped
prompt whenever the prompt contains no double-quote character), followed by
the ordering tail — and it is never the empty string.  Stated for both
status-word configurations through the `uw`/`dw` parameters. -/
theorem claim_C2_amended (uw dw : List String) (prompt : String)
    (hc : condListL uw dw prompt.data = [])
    (hq : quotedPhrases prompt.data = []) :
    String.mk (jqlL uw dw prompt.data) =
      String.mk ("text ~ \"".data ++ escQL (escQL prompt.data) ++ "\" order by updated desc".data) ∧
    String.mk (jqlL uw dw prompt.data) ≠ "" := by
  have ht : textTermsL uw dw prompt.data = [escQL prompt.data] := by
    simp [textTermsL, hq, hc]
  have hx : mkTextExprL (textTermsL uw dw prompt.data) =
      "text ~ \"".data ++ escQL (escQL prompt.data) ++ ['"'] := by
    rw [ht]; rfl
  have hbody : jqlL uw dw prompt.data =
      trimWsL (("text ~ \"".data ++ escQL (escQL prompt.data) ++ ['"']) ++
        " order by updated desc".data) := by
    simp only [jqlL, hc, hx]
    rfl
  have htrim : trimWsL (("text ~ \"".data ++ escQL (escQL prompt.data) ++ ['"']) ++
      " order by updated desc".data) =
      ("text ~ \"".data ++ escQL (escQL prompt.data) ++ ['"']) ++
        " order by updated desc".data := by
    apply trimWsL_eq_self
    · intro c hcx
      have h5 : 't' = c := by simpa using hcx
      subst h5; decide
    · intro c hcx
      rw [List.getLast?_append] at hcx
      have h5 : 'c' = c := by simpa using hcx
      subst h5; decide
  constructor
  · rw [hbody, htrim]
    simp
  · rw [hbody, htrim]
    intro hemp
    have : (("text ~ \"".data ++ escQL (escQL prompt.data) ++ ['"']) ++
        " order by updated desc".data) = "".data := congrArg String.data hemp
    simp at this

/-- Witness for the amended C2 at the matcher-free prompt `zzz`: the compiled
query is the escaped-prompt full-text fragment with the ordering tail, and
nonempty. -/
theorem claim_C2_amended_witness :
    String.mk (jqlL unresolvedWordsMcp doneWordsMcp "zzz".data) =
      String.mk ("text ~ \"".data ++ escQL (escQL "zzz".data) ++ "\" order by updated desc".data) ∧
    String.mk (jqlL unresolvedWordsMcp doneWordsMcp "zzz".data) ≠ "" :=
  claim_C2_amended unresolvedWordsMcp doneWordsMcp "zzz" (by decide) (by decide)

/-! ## C1: escaping of user-supplied double quotes -/

/-- Claim C1: every literal the compilers interpolate between double quotes
has been through the backslash-escaper, so in every such literal each double
quote is immediately preceded by a backslash — the quote character of a
prompt (or issue description) reaches the query only in backslash-escaped
form inside quoted fragments.  The Jira text terms are escaped at
interpolation (on the fallback path the collected term is the already-escaped
whole prompt, hence escaped twice); label, space, and title literals of both
compilers are escaped once. -/
theorem claim_C1_quotes_escaped (uw dw : List String) (p : List Char)
    (hp : '"' ∈ p) :
    (∀ t ∈ textTermsL uw dw p, quoteEscapedL (escQL t)) ∧
    (∀ l ∈ labelsListOf p, quoteEscapedL (escQL l)) ∧
    (quotedPhrases p = [] → condListL uw dw p = [] →
      textTermsL uw dw p = [escQL p]) ∧
    (∀ issue : List Char, '"' ∈ issue → quoteEscapedL (escQL issue)) ∧
    (∀ lbs : Option (List String), ∀ l ∈ prioritizedLabels lbs,
      quoteEscapedL (escQL l.data)) ∧
    (∀ sps : Option (List String), ∀ s ∈ sps.getD [],
      quoteEscapedL (escQL s.data)) := by
  refine ⟨fun t _ => quoteEscaped_escQL t,
    fun l _ => quoteEscaped_escQL l,
    fun hq hc => by simp [textTermsL, hq, hc],
    fun issue _ => quoteEscaped_escQL issue,
    fun lbs l _ => quoteEscaped_escQL l.data,
    fun sps s _ => quoteEscaped_escQL s.data⟩

/-- Witness for C1 at the quote-carrying prompt `zz "`: its (fallback) text
term and all interpolated literals are quote-escaped. -/
theorem claim_C1_witness :
    (∀ t ∈ textTermsL unresolvedWordsMcp doneWordsMcp "zz \"".data,
      quoteEscapedL (escQL t)) ∧
    (∀ l ∈ labelsListOf "zz \"".data, quoteEscapedL (escQL l)) ∧
    (quotedPhrases "zz \"".data = [] →
      condListL unresolvedWordsMcp doneWordsMcp "zz \"".data = [] →
      textTermsL unresolvedWordsMcp doneWordsMcp "zz \"".data = [escQL "zz \"".data]) ∧
    (∀ issue : List Char, '"' ∈ issue → quoteEscapedL (escQL issue)) ∧
    (∀ lbs : Option (List String), ∀ l ∈ prioritizedLabels lbs,
      quoteEscapedL (escQL l.data)) ∧
    (∀ sps : Option (List String), ∀ s ∈ sps.getD [],
      quoteEscapedL (escQL s.data)) :=
  claim_C1_quotes_escaped unresolvedWordsMcp doneWordsMcp "zz \"".data (by decide)

/-! ## C10: `highest` does not fire the `high` matcher -/

/-- Claim C10: for every prompt on which the word-bounded `highest` test
fires while neither the word-bounded `high` test nor the word-bounded `p2`
test does (in particular, any prompt containing `highest` but no standalone
`high` and no `p2` token — the boundary test cannot fire inside `highest`),
the condition list contains the `priority = "Highest"` fragment and does not
contain the `priority = "High"` fragment, in either status-word
configuration. -/
theorem claim_C10_highest_not_high (uw dw : List String) (p : List Char)
    (h1 : containsWord "highest" p = true)
    (h2 : containsWord "high" p = false)
    (h3 : containsWord "p2" p = false) :
    "priority = \"Highest\"".data ∈ condListL uw dw p ∧
    "priority = \"High\"".data ∉ condListL uw dw p := by
  constructor
  · simp [condListL, h1, List.mem_ite_nil_right]
  · intro hmem
    rcases hpr : scanFind projectAt none p with _ | pr <;>
      rcases hnd : scanFind lastNDaysAt none p with _ | nd <;>
        simp +decide [condListL, hpr, hnd, List.mem_append, List.mem_ite_nil_right,
          List.mem_ite_nil_left, h2, h3, ne_project_frag, ne_lastn_frag,
          ne_group_frag] at hmem

/-- Witness for C10 at the concrete prompt `highest priority first`: the
Highest fragment is a condition and the High fragment is not. -/
theorem claim_C10_witness :
    "priority = \"Highest\"".data ∈
      condListL unresolvedWordsMcp doneWordsMcp "highest priority first".data ∧
    "priority = \"High\"".data ∉
      condListL unresolvedWordsMcp doneWordsMcp "highest priority first".data :=
  claim_C10_highest_not_high unresolvedWordsMcp doneWordsMcp
    "highest priority first".data (by decide) (by decide) (by decide)

/-! ## C4: structure of the content-solution query -/

/-- Claim C4: for every issue description and optional spaces/labels (and
independently of the limit, which the source sends outside the query string),
the fragment list opens with the fixed `type = page`, contains the escaped
free-text fragment for the description, the parenthesized title-keyword
OR-group (spelled out below), and the parenthesized label OR-group over the
de-duplicated union of caller labels and the fixed defaults (first occurrence
kept, order preserved, no duplicates); the parenthesized space OR-group is a
fragment exactly when at least one space was supplied; and the compiled query
is the AND-join of the fragments followed by the single
last-modified-descending ordering tail. -/
theorem claim_C4_structure (issue : String) (spaces labels : Option (List String)) :
    (cqlPartsOf issue spaces labels).head? = some "type = page" ∧
    String.mk ("(text ~ \"".data ++ escQL issue.data ++ "\")".data) ∈
      cqlPartsOf issue spaces labels ∧
    String.mk (['('] ++ titleCql.data ++ [')']) ∈ cqlPartsOf issue spaces labels ∧
    titleCql = "title ~ \"troubleshoot\" OR title ~ \"solution\" OR title ~ \"resolve\" OR title ~ \"error\" OR title ~ \"fix\" OR title ~ \"how to\" OR title ~ \"how-to\" OR title ~ \"setup\" OR title ~ \"install\" OR title ~ \"configure\" OR title ~ \"guide\"" ∧
    String.mk (['('] ++ (labelCqlOf labels).data ++ [')']) ∈
      cqlPartsOf issue spaces labels ∧
    (prioritizedLabels labels).Nodup ∧
    (∀ l, l ∈ prioritizedLabels labels ↔ (l ∈ labels.getD [] ∨ l ∈ defaultLabels)) ∧
    (spaceCqlOf spaces ∈ cqlPartsOf issue spaces labels ↔ spaces.getD [] ≠ []) ∧
    confSolutionsCql issue spaces labels =
      String.mk (joinSepL " AND ".data ((cqlPartsOf issue spaces labels).map String.data) ++
        " order by lastmodified desc".data) := by
  refine ⟨rfl, ?_, ?_, by set_option maxRecDepth 4096 in decide, ?_,
    nodup_dedupFirst _, ?_, ?_, rfl⟩
  · simp [cqlPartsOf]
  · simp [cqlPartsOf]
  · simp [cqlPartsOf]
  · intro l
    rw [prioritizedLabels, mem_dedupFirst, List.mem_append]
  · cases spaces with
    | none =>
      simp only [spaceCqlOf, Option.getD_none, ne_eq, not_true_eq_false, iff_false]
      intro hmem
      simp [cqlPartsOf, String.ext_iff] at hmem
    | some l =>
      cases l with
      | nil =>
        simp only [spaceCqlOf, Option.getD_some, ne_eq, not_true_eq_false, iff_false]
        intro hmem
        simp [cqlPartsOf, String.ext_iff] at hmem
      | cons s ss =>
        have hne : spaceCqlOf (some (s :: ss)) ≠ "" := by
          simp [spaceCqlOf, String.ext_iff]
        simp [cqlPartsOf, hne]

/-! ## C9: excerpt shaping -/
/-- Claim C9, amended: for every raw excerpt, the shaped excerpt contains no
`<[^>]+>` tag-like substring, no run of two or more whitespace characters,
and no leading whitespace, and is at most 400 characters long; it also has no
trailing whitespace whenever the trimmed collapsed text is at most 400
characters long (the original claim's unconditional no-trailing-whitespace
fails only when the 400-character truncation cuts right after a space). -/
theorem claim_C9_amended (raw : String) :
    noTagL (shapeExcerptL raw.data) ∧
    noWsRunB (shapeExcerptL raw.data) = true ∧
    (∀ c t, shapeExcerptL raw.data = c :: t → wsChar c = false) ∧
    (shapeExcerptL raw.data).length ≤ 400 ∧
    ((trimWsL (collapseWs (stripTags raw.data))).length ≤ 400 →
      ∀ c, (shapeExcerptL raw.data).getLast? = some c → wsChar c = false) := by
  have hstrip : ltOkL (stripTags raw.data) := ltOk_stripTagsAux raw.data none (by simp)
  have hC : ltOkL (collapseWs (stripTags raw.data)) := ltOk_collapseWsAux _ _ hstrip
  have hinf : shapeExcerptL raw.data <:+: collapseWs (stripTags raw.data) := by
    unfold shapeExcerptL
    exact (List.take_prefix _ _).isInfix.trans (trimWsL_mid _)
  refine ⟨?_, ?_, ?_, ?_, ?_⟩
  · exact noTag_of_ltOk (ltOk_mid hinf hC)
  · exact noWsRunB_mid hinf (noWsRunB_collapseWsAux _ _)
  · intro c t h
    unfold shapeExcerptL at h
    cases htr : trimWsL (collapseWs (stripTags raw.data)) with
    | nil => rw [htr] at h; simp at h
    | cons a t2 =>
      rw [htr] at h
      have h2 : (a :: t2).take 400 = a :: t2.take 399 := rfl
      rw [h2] at h
      injection h with h3 _
      rw [← h3]
      exact trimWsL_head_not_ws htr
  · unfold shapeExcerptL
    rw [List.length_take]
    exact min_le_left _ _
  · intro hlen c hc
    unfold shapeExcerptL at hc
    rw [List.take_of_length_le hlen] at hc
    exact trimWsL_getLast_not_ws hc

/-- Claim C9 does not hold letter for letter: a raw excerpt of 399 `a`s, a
space, and a `b` shapes to 399 `a`s followed by a space — the truncation to
400 characters leaves a trailing whitespace character. -/
theorem claim_C9_counterexample :
    (shapeExcerpt (String.mk (List.replicate 399 'a' ++ [' ', 'b']))).data.getLast? =
      some ' ' ∧ wsChar ' ' = true := by
  decide

end CareAI
